import Mathlib

set_option maxRecDepth 4096

/-!
Verification development for the comment-tag recognition engine of
`better-comments` (file `src/parser.ts`).

The TypeScript source drives three regex-based scans over a document.  The
embedding below models:

  * the configuration (`Contributions`, `TagItem`) and the mutable fields of
    class `Parser` (`ParserState`),
  * the escaping helpers (`setTags` tag escaping and `escapeRegExp`),
  * the language switch `setDelimiter` (including the `alloy` fall-through
    into the `plaintext` case, which the source exhibits because the `alloy`
    case has no `break`),
  * a small backtracking regular-expression engine (`mrun`, `execFrom`,
    `execLoop`) that follows the JavaScript `RegExp.exec` semantics used by
    the source: leftmost match, ordered alternation, greedy and lazy
    quantifiers with the "an iteration that consumes nothing terminates the
    quantifier" rule, capture groups recording the last repetition, and the
    global-flag loop that resumes from `lastIndex`,
  * the three scan methods `FindSingleLineComments`, `FindBlockComments`,
    `FindJSDocComments`, and `ApplyDecorations`.

Text positions are byte-free character offsets into the document text
(`vscode.TextDocument.positionAt` is a bijection between offsets and
line/character positions, and the source only ever converts offsets to
positions, so a `TextRange` is modelled as a pair of offsets).
-/

/-- One entry of the `better-comments.tags` configuration
(`Contributions.tags` in the source).  The style fields are opaque to the
scan engine; they are carried through to the rendering host. -/
structure TagItem where
  tag : String
  color : String := ""
  strikethrough : Bool := false
  underline : Bool := false
  bold : Bool := false
  italic : Bool := false
  backgroundColor : String := ""
deriving DecidableEq

/-- The `Contributions` configuration record read from the package settings. -/
structure Contributions where
  multilineComments : Bool := true
  useJSDocStyle : Bool := true
  highlightPlainText : Bool := false
  tags : List TagItem := []
deriving DecidableEq

/-- `CommentTag` of the source: a configured tag, its escaped pattern
fragment, and the ranges buffer filled by the scans.  The
`vscode.TextEditorDecorationType` is host-side rendering state and carries
no information used by the scans, so it is not modelled. -/
structure CommentTag where
  tag : String
  escapedTag : String
  ranges : List (Nat × Nat) := []
deriving DecidableEq

/-!  ## Regular-expression engine

Abstract syntax of the regex fragments that `parser.ts` assembles.  The
constructors cover exactly the constructs appearing in the patterns the
source builds: literals, character classes (`cls true cs` is a negated
class), `.` (`dot`, any character except a line terminator), `[\s\S]`
(`anyc`, any character), the `^` assertion (`bol`), concatenation, ordered
alternation, greedy `*` (`star`), lazy `*?` (`lazyStar`) and numbered
capture groups.  `X+` is expressed as `X` followed by `X*`, which is the
ECMAScript semantics of the `+` quantifier. -/
inductive RE where
  | eps
  | lit (c : Char)
  | cls (neg : Bool) (cs : List Char)
  | dot
  | anyc
  | bol
  | cat (a b : RE)
  | alt (a b : RE)
  | star (a : RE)
  | lazyStar (a : RE)
  | grp (n : Nat) (a : RE)
deriving DecidableEq

/-- Capture list: `(group, startOffset, stopOffset)`, most recent first
(a group matched again by a later quantifier repetition shadows the
earlier record, as in ECMAScript). -/
abbrev Caps := List (Nat × Nat × Nat)

/-- Matching context: subject text and the `i` / `m` flags. -/
structure RxCtx where
  text : List Char
  ci : Bool
  ml : Bool

/-- Character comparison under the optional `i` flag. -/
def charEq (ci : Bool) (a b : Char) : Bool :=
  if ci then a.toLower == b.toLower else a == b

/-- Character-class membership under the optional `i` flag. -/
def clsMatch (ci : Bool) (neg : Bool) (cs : List Char) (d : Char) : Bool :=
  let m := cs.any (fun c => charEq ci c d)
  if neg then !m else m

/-- The `^` assertion: start of input, or just after a line terminator when
the `m` flag is set. -/
def bolTest (γ : RxCtx) (pos : Nat) : Bool :=
  pos == 0 ||
    (γ.ml && (γ.text.get? (pos - 1) == some '\n' || γ.text.get? (pos - 1) == some '\r'))

/-- Backtracking matcher.  `mrun γ fuel re pos caps` returns, in ECMAScript
backtracking preference order, the list of `(stop, caps)` states in which
`re` can match starting at offset `pos`.  The head of the list is the match
the JavaScript engine commits to.  Quantifier repetitions that consume no
input are discarded, which is the ECMAScript `RepeatMatcher` progress rule.
`fuel` bounds the depth of the search (it decreases on every recursive
call, keeping the definition structurally recursive and hence computable
by the kernel); it is always instantiated large enough for the patterns
the source builds, whose search depth per kept repetition is bounded
because each kept repetition consumes at least one character. -/
def mrun (γ : RxCtx) : Nat → RE → Nat → Caps → List (Nat × Caps)
  | 0, _, _, _ => []
  | fuel + 1, re, pos, caps =>
    match re with
    | .eps => [(pos, caps)]
    | .lit c =>
      match γ.text.get? pos with
      | some d => if charEq γ.ci c d then [(pos + 1, caps)] else []
      | none => []
    | .cls neg cs =>
      match γ.text.get? pos with
      | some d => if clsMatch γ.ci neg cs d then [(pos + 1, caps)] else []
      | none => []
    | .dot =>
      match γ.text.get? pos with
      | some d => if d == '\n' || d == '\r' then [] else [(pos + 1, caps)]
      | none => []
    | .anyc =>
      match γ.text.get? pos with
      | some _ => [(pos + 1, caps)]
      | none => []
    | .bol => if bolTest γ pos then [(pos, caps)] else []
    | .cat a b =>
      (mrun γ fuel a pos caps).flatMap (fun r => mrun γ fuel b r.1 r.2)
    | .alt a b => mrun γ fuel a pos caps ++ mrun γ fuel b pos caps
    | .grp n a =>
      (mrun γ fuel a pos caps).map (fun r => (r.1, (n, pos, r.1) :: r.2))
    | .star a =>
      ((mrun γ fuel a pos caps).filter (fun r => pos < r.1)).flatMap
        (fun r => mrun γ fuel (.star a) r.1 r.2) ++ [(pos, caps)]
    | .lazyStar a =>
      (pos, caps) ::
      ((mrun γ fuel a pos caps).filter (fun r => pos < r.1)).flatMap
        (fun r => mrun γ fuel (.lazyStar a) r.1 r.2)

/-- A match as returned by `RegExp.exec`: start offset, one-past-the-end
offset, and the captures.  `match[0].length` is `stop - idx`. -/
structure RxMatch where
  idx : Nat
  stop : Nat
  caps : Caps
deriving DecidableEq

/-- `exec` against positions `start, start+1, ...` until the first offset at
which the pattern matches, as the JavaScript engine does; `tries` is a
recursion bound always instantiated to at least `text.length + 1`. -/
def execFrom (γ : RxCtx) (fuel : Nat) (re : RE) : Nat → Nat → Option RxMatch
  | 0, _ => none
  | tries + 1, start =>
    if start ≤ γ.text.length then
      match mrun γ fuel re start [] with
      | r :: _ => some ⟨start, r.1, r.2⟩
      | [] => execFrom γ fuel re tries (start + 1)
    else none

/-- The `while (match = regEx.exec(text))` loop of the source: repeated
global-flag `exec`, resuming from `lastIndex = stop` of the previous match.
`rounds` bounds the number of matches; every pattern built by the source
only matches nonempty text (on patterns that can match the empty string the
JavaScript loop itself would not terminate). -/
def execLoop (γ : RxCtx) (fuel : Nat) (re : RE) : Nat → Nat → List RxMatch
  | 0, _ => []
  | rounds + 1, li =>
    match execFrom γ fuel re (γ.text.length + 1) li with
    | none => []
    | some m => m :: execLoop γ fuel re rounds m.stop

/-- Fuel that over-approximates the search depth any of the patterns built
by the source can reach on a given subject. -/
def mrunFuel (t : List Char) : Nat := (t.length + 16) * 32

/-- `text.slice(a, b)` on a character list. -/
def sliceL (t : List Char) (a b : Nat) : List Char := (t.drop a).take (b - a)

/-- Latest record of capture group `n`. -/
def capGet (caps : Caps) (n : Nat) : Option (Nat × Nat) :=
  (caps.find? (fun e => e.1 == n)).map (fun e => e.2)

/-- Text of capture group `n` (`[]` for an unparticipating group). -/
def capSlice (t : List Char) (caps : Caps) (n : Nat) : List Char :=
  match capGet caps n with
  | some p => sliceL t p.1 p.2
  | none => []

/-- Length of capture group `n` (`0` for an unparticipating group). -/
def capLen (caps : Caps) (n : Nat) : Nat :=
  match capGet caps n with
  | some p => p.2 - p.1
  | none => 0

/-- Lower-casing of a character list (`String.prototype.toLowerCase`). -/
def lowerL (l : List Char) : List Char := l.map Char.toLower

/-!  ## Parser state and configuration processing -/

/-- The mutable fields of class `Parser`, with their initializers.
`exprRE` accompanies `expression`: the source stores the single-line
pattern as a string and re-parses it with `new RegExp` inside
`FindSingleLineComments`; since the embedding does not model a regex
source-text parser, `SetRegex` stores the abstract syntax of the very
pattern whose source text it assigns to `expression` (both are updated
together and nowhere else). -/
structure ParserState where
  tags : List CommentTag := []
  expression : String := ""
  exprRE : RE := RE.eps
  delimiter : String := ""
  blockCommentStart : String := ""
  blockCommentEnd : String := ""
  highlightSingleLineComments : Bool := true
  highlightMultilineComments : Bool := false
  highlightJSDoc : Bool := false
  isPlainText : Bool := false
  ignoreFirstLine : Bool := false
  supportedLanguage : Bool := true
deriving DecidableEq

/-- The characters escaped by `escapeRegExp`: the class
`[.*+?^${}()|[\]\\]` of the source. -/
def escapeRegExpChars : List Char :=
  ['.', '*', '+', '?', '^', '$', '\x7b', '\x7d', '(', ')', '|', '[', ']', '\\']

/-- `escapeRegExp` on a character list: every occurrence of a character of
the class is replaced by a backslash followed by that character
(`input.replace(/[.*+?^${}()|[\]\\]/g, "\\$&")`). -/
def escapeRegExpL : List Char → List Char
  | [] => []
  | c :: cs => (if c ∈ escapeRegExpChars then ['\\', c] else [c]) ++ escapeRegExpL cs

/-- `escapeRegExp` of the source. -/
def escapeRegExp (input : String) : String := ⟨escapeRegExpL input.data⟩

/-- The characters escaped by the first replace in `setTags`: the class
`([()[{*+.$^\\|?])` of the source (note: it contains neither `]` nor the
closing brace). -/
def setTagsEscapeChars : List Char :=
  ['(', ')', '[', '\x7b', '*', '+', '.', '$', '^', '\\', '|', '?']

/-- The tag escaping of `setTags`: the composition of
`tag.replace(/([()[{*+.$^\\|?])/g, "\\$1")` with the hard-coded slash
escape `.replace(/\//gi, "\\/")`.  Both replaces substitute single
characters and the first never produces a `/`, so the composition acts
character by character. -/
def setTagsEscapeL : List Char → List Char
  | [] => []
  | c :: cs =>
    (if c ∈ setTagsEscapeChars || c == '/' then ['\\', c] else [c]) ++ setTagsEscapeL cs

/-- The escaped pattern fragment `escapedTag` built for a configured tag. -/
def setTagsEscape (s : String) : String := ⟨setTagsEscapeL s.data⟩

/-- `setTags`: build the `CommentTag` registry from the configured items,
preserving configuration order. -/
def setTags (items : List TagItem) : List CommentTag :=
  items.map (fun item =>
    { tag := item.tag, escapedTag := setTagsEscape item.tag, ranges := [] })

/-- A freshly constructed `Parser` (the constructor runs `setTags`). -/
def ParserState.new (cfg : Contributions) : ParserState :=
  { tags := setTags cfg.tags }

/-- `setCommentFormat` of the source. -/
def setCommentFormat (cfg : Contributions) (singleLine : Option String)
    (start stop : String) (s : ParserState) : ParserState :=
  let s :=
    match singleLine with
    | some sl => { s with delimiter := escapeRegExp sl }
    | none => { s with highlightSingleLineComments := false }
  { s with
      blockCommentStart := escapeRegExp start,
      blockCommentEnd := escapeRegExp stop,
      highlightMultilineComments := cfg.multilineComments }

/-- The body of one `case` of the `setDelimiter` switch, as data:

  * `fmt singleLine start stop jsdoc ignoreFirst` - a call
    `setCommentFormat(singleLine, start, stop)`, followed by
    `highlightJSDoc = true` when `jsdoc` is set (the apex/javascript/...
    group) and by `ignoreFirstLine = true` when `ignoreFirst` is set (the
    elixir/python group);
  * `delim d plain` - a bare `delimiter = d` assignment, followed by
    `isPlainText = true` when `plain` is set (the gitignore case);
  * `alloyCase` - the `alloy` case, which also executes the `plaintext`
    case body because it has no `break`;
  * `plainCase` - the `plaintext` case;
  * `unsupported` - the `default` case. -/
inductive LangCase where
  | fmt (singleLine : Option String) (start stop : String) (jsdoc ignoreFirst : Bool)
  | delim (d : String) (plain : Bool)
  | alloyCase
  | plainCase
  | unsupported
deriving DecidableEq

/-- The dispatch of the `setDelimiter` switch: which case body runs for a
language id.  One entry per `case` group of the source; the second
`case "tcl"` of the source is dead code (the first `"tcl"` label, in the
`#`-delimiter group, wins) and accordingly has no entry. -/
def langCase : String → LangCase
  | "asciidoc" => .fmt (some "//") "////" "////" false false
  | "apex" | "javascript" | "javascriptreact" | "typescript" | "typescriptreact" =>
    .fmt (some "//") "/*" "*/" true false
  | "al" | "c" | "cpp" | "csharp" | "dafny" | "dart" | "flax" | "fsharp" | "go"
  | "groovy" | "haxe" | "java" | "jsonc" | "kotlin" | "less" | "pascal"
  | "objectpascal" | "php" | "promela" | "rust" | "scala" | "sass" | "scss"
  | "shaderlab" | "stylus" | "swift" | "verilog" | "vue" =>
    .fmt (some "//") "/*" "*/" false false
  | "css" => .fmt (some "/*") "/*" "*/" false false
  | "coffeescript" | "cson" | "dockerfile" | "gdscript" | "graphql" | "julia"
  | "makefile" | "perl" | "perl6" | "puppet" | "r" | "ruby" | "shellscript"
  | "tcl" | "toml" | "yaml" => .delim "#" false
  | "gitconfig" => .delim "[#;]" false
  | "gitignore" => .delim "^#" true
  | "elixir" | "python" => .fmt (some "#") "\"\"\"" "\"\"\"" false true
  | "nim" => .fmt (some "#") "#[" "]#" false false
  | "powershell" => .fmt (some "#") "<#" "#>" false false
  | "ada" | "hive-sql" | "pig" | "plsql" | "sql" => .delim "--" false
  | "lua" => .fmt (some "--") "--[[" "]]" false false
  | "elm" | "haskell" => .fmt (some "--") "\x7b-" "-\x7d" false false
  | "brightscript" | "diagram" | "vb" => .delim "\x27" false
  | "bibtex" | "tex" | "erlang" | "matlab" => .delim "%" false
  | "latex" => .fmt (some "%") "\\begin\x7bcomment\x7d" "\\end\x7bcomment\x7d" false false
  | "ahk" => .fmt (some ";") "/*" "*/" false false
  | "clojure" | "racket" | "lisp" | "rainmeter" => .delim ";" false
  | "gas" | "terraform" => .fmt (some "#") "/*" "*/" false false
  | "COBOL" => .delim (escapeRegExp "*>") false
  | "fortran-modern" => .delim "c" false
  | "SAS" | "stata" => .fmt (some "*") "/*" "*/" false false
  | "html" | "markdown" | "xml" => .fmt (some "<!--") "<!--" "-->" false false
  | "twig" => .fmt (some "\x7b#") "\x7b#" "#\x7d" false false
  | "genstat" => .fmt (some "\\") "\"" "\"" false false
  | "cfml" => .fmt (some "<!---") "<!---" "--->" false false
  | "alloy" => .alloyCase
  | "plaintext" => .plainCase
  | _ => .unsupported

/-- Run one case body of the `setDelimiter` switch. -/
def applyLangCase (cfg : Contributions) : LangCase → ParserState → ParserState
  | .fmt singleLine start stop jsdoc ignoreFirst, s =>
    let s := setCommentFormat cfg singleLine start stop s
    let s := if jsdoc then { s with highlightJSDoc := true } else s
    if ignoreFirst then { s with ignoreFirstLine := true } else s
  | .delim d plain, s =>
    let s := { s with delimiter := d }
    if plain then { s with isPlainText := true } else s
  | .alloyCase, s =>
    let s :=
      { s with
          delimiter := "(?://|--)",
          blockCommentStart := escapeRegExp "/*",
          blockCommentEnd := escapeRegExp "*/",
          highlightMultilineComments := cfg.multilineComments }
    -- no break in the source: the plaintext case body runs as well
    { s with isPlainText := true, supportedLanguage := cfg.highlightPlainText }
  | .plainCase, s =>
    { s with isPlainText := true, supportedLanguage := cfg.highlightPlainText }
  | .unsupported, s => { s with supportedLanguage := false }

/-- `setDelimiter`: reset `supportedLanguage`, `ignoreFirstLine` and
`isPlainText` (only these three are reset at the top of the source
method), then run the case body selected by the language id. -/
def setDelimiter (cfg : Contributions) (languageCode : String) (s : ParserState) :
    ParserState :=
  applyLangCase cfg (langCase languageCode)
    { s with supportedLanguage := true, ignoreFirstLine := false, isPlainText := false }

/-!  ## Pattern construction (`SetRegex`) -/

/-- `( |\t)` of the single-line pattern. -/
def hwsAlt : RE := RE.alt (RE.lit ' ') (RE.lit '\t')

/-- `[ \t]`. -/
def hwsCls : RE := RE.cls false [' ', '\t']

/-- `[\s]` (the ASCII part of the ECMAScript whitespace class; the source
texts under consideration contain no further whitespace code points). -/
def wsCls : RE := RE.cls false [' ', '\t', '\n', '\r', '\x0b', '\x0c']

/-- `X+` as `X` followed by `X*`. -/
def REplus (a : RE) : RE := RE.cat a (RE.star a)

/-- A literal character sequence. -/
def litStr (l : List Char) : RE := l.foldr (fun c r => RE.cat (RE.lit c) r) RE.eps

/-- Ordered alternation `r1|r2|...|rn`. -/
def altList : List RE → RE
  | [] => RE.eps
  | [r] => r
  | r :: rs => RE.alt r (altList rs)

/-- Inverse of the escaping: recovers the literal characters a pre-escaped
fragment stands for.  The stored delimiters are produced by `escapeRegExp`
(or are already literal), for which this is exact.  The three delimiters
the source deliberately stores as raw regex syntax (`gitconfig`,
`gitignore`, `alloy` - "bypasses regex scrubber") are not literal
fragments and are not denoted faithfully by this function; no theorem
below scans those languages, and the range-bounds theorems hold for every
abstract pattern regardless. -/
def unescapeSrc : List Char → List Char
  | [] => []
  | '\\' :: c :: cs => c :: unescapeSrc cs
  | c :: cs => c :: unescapeSrc cs

/-- The alternation of the configured tags, in registry order.  An
`escapedTag` fragment denotes exactly the literal marker characters (see
`setTagsEscape_literal` below), so the denotation is the literal marker. -/
def tagAltRE (tags : List CommentTag) : RE :=
  altList (tags.map (fun t => litStr t.tag.data))

/-- Abstract syntax of the single-line pattern assembled by `SetRegex`:
either `(^)+([ \t]*[ \t]*)` (plain-text mode) or `(delimiter)+( |\t)*`,
followed by `(tag1|...|tagn)+(.*)`.  Group numbers as in the source:
group 3 is the tag alternation, group 4 the rest of the line. -/
def buildSingleLineRE (cfg : Contributions) (s : ParserState) : RE :=
  let tail := RE.cat (REplus (RE.grp 3 (tagAltRE s.tags))) (RE.grp 4 (RE.star RE.dot))
  if s.isPlainText && cfg.highlightPlainText then
    RE.cat (REplus (RE.grp 1 RE.bol))
      (RE.cat (RE.grp 2 (RE.cat (RE.star hwsCls) (RE.star hwsCls))) tail)
  else
    RE.cat (REplus (RE.grp 1 (litStr (unescapeSrc s.delimiter.data))))
      (RE.cat (RE.star (RE.grp 2 hwsAlt)) tail)

/-- `delimiter.replace(/\//ig, "\\/")` used while assembling the pattern
source text. -/
def slashEscapeL : List Char → List Char
  | [] => []
  | c :: cs => (if c == '/' then ['\\', c] else [c]) ++ slashEscapeL cs

/-- String form of the slash escape. -/
def slashEscape (s : String) : String := ⟨slashEscapeL s.data⟩

/-- `SetRegex` of the source: resolve the language, and unless it is
unsupported assemble the single-line pattern. -/
def SetRegex (cfg : Contributions) (languageCode : String) (s : ParserState) :
    ParserState :=
  let s := setDelimiter cfg languageCode s
  if !s.supportedLanguage then s
  else
    let head :=
      if s.isPlainText && cfg.highlightPlainText then "(^)+([ \\t]*[ \\t]*)"
      else "(" ++ slashEscape s.delimiter ++ ")+( |\t)*"
    { s with
        expression :=
          head ++ "(" ++ String.intercalate "|" (s.tags.map (fun t => t.escapedTag))
            ++ ")+(.*)",
        exprRE := buildSingleLineRE cfg s }

/-!  ## The three scans -/

/-- `tags.find(item => item.tag.toLowerCase() === key).ranges.push(r)`:
append `r` to the ranges of the first tag whose lower-cased marker equals
`key`; no effect when no tag matches (the source then skips the push). -/
def pushRange (key : List Char) (r : Nat × Nat) : List CommentTag → List CommentTag
  | [] => []
  | t :: ts =>
    if lowerL t.tag.data == key then { t with ranges := t.ranges ++ [r] } :: ts
    else t :: pushRange key r ts

/-- `FindSingleLineComments`: run the stored single-line pattern with flags
`ig` (`igm` in plain-text mode) over the document, skip a match starting at
absolute offset 0 when `ignoreFirstLine` is set, and record the range
`[match.index, match.index + match[0].length)` under the tag matching
capture 3 case-insensitively.  (`positionAt(k)` is `(line 0, character 0)`
exactly for `k = 0`, so the first-line test is `m.idx == 0`.) -/
def FindSingleLineComments (text : String) (s : ParserState) : ParserState :=
  if !s.highlightSingleLineComments then s
  else
    let t := text.data
    let γ : RxCtx := { text := t, ci := true, ml := s.isPlainText }
    let ms := execLoop γ (mrunFuel t) s.exprRE (t.length + 1) 0
    { s with tags :=
        ms.foldl (fun tags m =>
          if s.ignoreFirstLine && m.idx == 0 then tags
          else pushRange (lowerL (capSlice t m.caps 3)) (m.idx, m.stop) tags) s.tags }

/-- Inner per-line pattern of `FindBlockComments`:
`(^)+([ \t]*[ \t]*)(tag1|...|tagn)([ ]*|[:])+([^*/][^\r\n]*)`,
run with flags `igm` against a block-comment region. -/
def blockInnerRE (tags : List CommentTag) : RE :=
  RE.cat (REplus (RE.grp 1 RE.bol))
  (RE.cat (RE.grp 2 (RE.cat (RE.star hwsCls) (RE.star hwsCls)))
  (RE.cat (RE.grp 3 (tagAltRE tags))
  (RE.cat (REplus (RE.grp 4 (RE.alt (RE.star (RE.cls false [' '])) (RE.cls false [':']))))
  (RE.grp 5 (RE.cat (RE.cls true ['*', '/']) (RE.star (RE.cls true ['\r', '\n'])))))))

/-- Outer region pattern of `FindBlockComments`:
`(^|[ \t])(blockCommentStart[\s])+([\s\S]*?)(blockCommentEnd)`,
run with flags `gm`. -/
def blockOuterRE (bs be : String) : RE :=
  RE.cat (RE.grp 1 (RE.alt RE.bol hwsCls))
  (RE.cat (REplus (RE.grp 2 (RE.cat (litStr (unescapeSrc bs.data)) wsCls)))
  (RE.cat (RE.grp 3 (RE.lazyStar RE.anyc))
  (RE.grp 4 (litStr (unescapeSrc be.data)))))

/-- `FindBlockComments`: locate block-comment regions, re-scan each region
line by line, and record, per inner match `line` inside outer match
`match`, the range from `match.index + line.index + line[2].length` to
`match.index + line.index + line[0].length` under the tag matching
capture 3. -/
def FindBlockComments (text : String) (s : ParserState) : ParserState :=
  if !s.highlightMultilineComments then s
  else
    let t := text.data
    let γo : RxCtx := { text := t, ci := false, ml := true }
    let blocks :=
      execLoop γo (mrunFuel t) (blockOuterRE s.blockCommentStart s.blockCommentEnd)
        (t.length + 1) 0
    { s with tags :=
        blocks.foldl (fun tags m =>
          let blockT := sliceL t m.idx m.stop
          let γi : RxCtx := { text := blockT, ci := true, ml := true }
          let lines :=
            execLoop γi (mrunFuel blockT) (blockInnerRE s.tags) (blockT.length + 1) 0
          lines.foldl (fun tags l =>
            pushRange (lowerL (capSlice blockT l.caps 3))
              (m.idx + l.idx + capLen l.caps 2, m.idx + l.idx + (l.stop - l.idx))
              tags) tags) s.tags }

/-- Inner per-line pattern of `FindJSDocComments`:
`(^)+([ \t]*\*[ \t]*)(tag1|...|tagn)([ ]*|[:])+([^*/][^\r\n]*)`, flags `igm`. -/
def jsdocInnerRE (tags : List CommentTag) : RE :=
  RE.cat (REplus (RE.grp 1 RE.bol))
  (RE.cat (RE.grp 2 (RE.cat (RE.star hwsCls) (RE.cat (RE.lit '*') (RE.star hwsCls))))
  (RE.cat (RE.grp 3 (tagAltRE tags))
  (RE.cat (REplus (RE.grp 4 (RE.alt (RE.star (RE.cls false [' '])) (RE.cls false [':']))))
  (RE.grp 5 (RE.cat (RE.cls true ['*', '/']) (RE.star (RE.cls true ['\r', '\n'])))))))

/-- Outer region pattern of `FindJSDocComments`:
`(^|[ \t])(\/\*\*)+([\s\S]*?)(\*\/)`, flags `gm`. -/
def jsdocOuterRE : RE :=
  RE.cat (RE.grp 1 (RE.alt RE.bol hwsCls))
  (RE.cat (REplus (RE.grp 2 (litStr ['/', '*', '*'])))
  (RE.cat (RE.grp 3 (RE.lazyStar RE.anyc))
  (RE.grp 4 (litStr ['*', '/']))))

/-- `FindJSDocComments`: same two-stage algorithm as `FindBlockComments`
with the fixed doc-comment region pattern, enabled when either multiline
or JSDoc highlighting is on. -/
def FindJSDocComments (text : String) (s : ParserState) : ParserState :=
  if !s.highlightMultilineComments && !s.highlightJSDoc then s
  else
    let t := text.data
    let γo : RxCtx := { text := t, ci := false, ml := true }
    let blocks := execLoop γo (mrunFuel t) jsdocOuterRE (t.length + 1) 0
    { s with tags :=
        blocks.foldl (fun tags m =>
          let blockT := sliceL t m.idx m.stop
          let γi : RxCtx := { text := blockT, ci := true, ml := true }
          let lines :=
            execLoop γi (mrunFuel blockT) (jsdocInnerRE s.tags) (blockT.length + 1) 0
          lines.foldl (fun tags l =>
            pushRange (lowerL (capSlice blockT l.caps 3))
              (m.idx + l.idx + capLen l.caps 2, m.idx + l.idx + (l.stop - l.idx))
              tags) tags) s.tags }

/-- `{ t with ranges := [] }` - the per-tag clearing done by
`ApplyDecorations` (`tag.ranges.length = 0`). -/
def clearTag (t : CommentTag) : CommentTag := { t with ranges := [] }

/-- `ApplyDecorations`: hand every tag with its collected ranges to the
rendering host (first component) and clear the ranges buffers for the next
pass (second component). -/
def ApplyDecorations (s : ParserState) :
    List (String × List (Nat × Nat)) × ParserState :=
  (s.tags.map (fun t => (t.tag, t.ranges)), { s with tags := s.tags.map clearTag })

/-- The mapping from marker to collected ranges held in a parser state. -/
def rangesOf (s : ParserState) : List (String × List (Nat × Nat)) :=
  s.tags.map (fun t => (t.tag, t.ranges))

/-- Modelled from the spec: the spec treats each scan mode as a pure
function of document text, grammar descriptor and tag registry, and the
guard that skips every scan for an unsupported language lives in the
extension glue (`updateDecorations` checks `parser.supportedLanguage`
before invoking the finders), which is not part of `src/`.  This wrapper
composes a fresh parser, `SetRegex`, that guard, and
`FindSingleLineComments`. -/
def scanSingleLine (cfg : Contributions) (languageId : String) (text : String) :
    List (String × List (Nat × Nat)) :=
  let s := SetRegex cfg languageId (ParserState.new cfg)
  if s.supportedLanguage then rangesOf (FindSingleLineComments text s)
  else s.tags.map (fun t => (t.tag, []))

/-- Modelled from the spec: the delimiter-bounded block scan as a pure
function, with the extension-side `supportedLanguage` guard (see
`scanSingleLine`). -/
def scanBlock (cfg : Contributions) (languageId : String) (text : String) :
    List (String × List (Nat × Nat)) :=
  let s := SetRegex cfg languageId (ParserState.new cfg)
  if s.supportedLanguage then rangesOf (FindBlockComments text s)
  else s.tags.map (fun t => (t.tag, []))

/-- Modelled from the spec: the doc-style block scan as a pure function,
with the extension-side `supportedLanguage` guard (see `scanSingleLine`). -/
def scanJSDoc (cfg : Contributions) (languageId : String) (text : String) :
    List (String × List (Nat × Nat)) :=
  let s := SetRegex cfg languageId (ParserState.new cfg)
  if s.supportedLanguage then rangesOf (FindJSDocComments text s)
  else s.tags.map (fun t => (t.tag, []))

/-- One single-line scan pass as the host drives it: find, then apply
(which clears the buffers for the next pass). -/
def singleLinePass (text : String) (s : ParserState) :
    List (String × List (Nat × Nat)) × ParserState :=
  ApplyDecorations (FindSingleLineComments text s)

/-!  ## Invariant predicates, spec-side definitions and example
configurations used by the theorems -/

/-- Every range recorded in the registry satisfies `P`. -/
def tagsRangesAll (P : Nat × Nat → Prop) (ts : List CommentTag) : Prop :=
  ∀ t ∈ ts, ∀ r ∈ t.ranges, P r

/-- The state with every ranges buffer cleared. -/
def clearState (s : ParserState) : ParserState :=
  { s with tags := s.tags.map clearTag }

/-- The interpretation of a pattern fragment as a literal: every
backslash-escape denotes its escaped character; a plain character is
accepted only if ECMAScript treats it as a literal atom in that position.
Unescaped `]` and the closing brace are literal atoms of an ECMAScript
pattern outside a character class, and `/` is literal in a pattern handed
to the `RegExp` constructor, so they are accepted; the characters of
`setTagsEscapeChars` are syntax when unescaped and are rejected. -/
def literalParse : List Char → Option (List Char)
  | [] => some []
  | c :: cs =>
    if c = '\\' then
      match cs with
      | [] => none
      | d :: cs2 => (literalParse cs2).map (fun l => d :: l)
    else if c ∈ setTagsEscapeChars then none
    else (literalParse cs).map (fun l => c :: l)

/-- The escaping the spec asks for: every metacharacter among
`. * + ? ^ $ { } ( ) | [ ] \` and the forward slash is escaped. -/
def specMetaChars : List Char :=
  ['.', '*', '+', '?', '^', '$', '\x7b', '\x7d', '(', ')', '|', '[', ']', '\\', '/']

/-- Escaping as worded by the spec (for comparison with the escaping the
source performs): prefix every character of `specMetaChars` with a
backslash. -/
def specEscapeAllMeta (s : String) : String :=
  ⟨s.data.flatMap (fun c => if c ∈ specMetaChars then ['\\', c] else [c])⟩

/-!  ## Example configurations used by the concrete theorems -/

/-- A configuration with the single tag `todo`. -/
def cfgTodo : Contributions := { tags := [{ tag := "todo" }] }

/-- A configuration with the tags `!` and `!!`, in that order; the marker
of the first is a strict marker-prefix of the second. -/
def cfgTwoTags : Contributions := { tags := [{ tag := "!" }, { tag := "!!" }] }

/-- A configuration with the single tag `!`. -/
def cfgBang : Contributions := { tags := [{ tag := "!" }] }

/-- A configuration with plain-text highlighting enabled and the tag `!`. -/
def cfgPlain : Contributions := { highlightPlainText := true, tags := [{ tag := "!" }] }

/-- A configuration with multiline highlighting enabled and the tag `!`. -/
def cfgMulti : Contributions := { multilineComments := true, tags := [{ tag := "!" }] }

/-!  ## Helper lemmas: language resolution and state plumbing -/

theorem setDelimiter_tags (cfg : Contributions) (lang : String) (s : ParserState) :
    (setDelimiter cfg lang s).tags = s.tags := by
  unfold setDelimiter
  rcases langCase lang with ⟨sl, st, en, j, i⟩ | ⟨d, p⟩ | _ | _ | _ <;>
    simp only [applyLangCase] <;>
    first
      | rfl
      | (cases sl <;> cases j <;> cases i <;> rfl)
      | (cases p <;> rfl)

theorem setDelimiter_flags (cfg : Contributions) (lang : String) (s1 s2 : ParserState) :
    (setDelimiter cfg lang s1).supportedLanguage = (setDelimiter cfg lang s2).supportedLanguage ∧
    (setDelimiter cfg lang s1).ignoreFirstLine = (setDelimiter cfg lang s2).ignoreFirstLine ∧
    (setDelimiter cfg lang s1).isPlainText = (setDelimiter cfg lang s2).isPlainText := by
  unfold setDelimiter
  refine ⟨?_, ?_, ?_⟩ <;>
    (rcases langCase lang with ⟨sl, st, en, j, i⟩ | ⟨d, p⟩ | _ | _ | _ <;>
      simp only [applyLangCase] <;>
      first
        | rfl
        | (cases sl <;> cases j <;> cases i <;> rfl)
        | (cases p <;> rfl))

theorem SetRegex_tags (cfg : Contributions) (lang : String) (s : ParserState) :
    (SetRegex cfg lang s).tags = s.tags := by
  simp only [SetRegex]
  split
  · exact setDelimiter_tags cfg lang s
  · simpa using setDelimiter_tags cfg lang s

theorem SetRegex_supported (cfg : Contributions) (lang : String) (s : ParserState) :
    (SetRegex cfg lang s).supportedLanguage = (setDelimiter cfg lang s).supportedLanguage := by
  simp only [SetRegex]
  split <;> simp_all

theorem new_tags_ranges (cfg : Contributions) :
    ∀ t ∈ (ParserState.new cfg).tags, t.ranges = [] := by
  intro t ht
  simp only [ParserState.new, setTags, List.mem_map] at ht
  obtain ⟨item, -, rfl⟩ := ht
  rfl

/-!  ## Helper lemmas: ranges invariants through the scan folds -/

theorem pushRange_all {P : Nat × Nat → Prop} {key : List Char} {r : Nat × Nat} :
    ∀ {ts : List CommentTag}, tagsRangesAll P ts → P r →
      tagsRangesAll P (pushRange key r ts) := by
  intro ts
  induction ts with
  | nil => intro h _; simpa [pushRange] using h
  | cons t ts ih =>
    intro h hr
    have ht : ∀ r' ∈ t.ranges, P r' := h t (by simp)
    have hts : tagsRangesAll P ts := fun u hu => h u (by simp [hu])
    unfold pushRange
    split
    · intro u hu
      rcases List.mem_cons.mp hu with rfl | hu
      · intro r' hr'
        rcases List.mem_append.mp hr' with hr' | hr'
        · exact ht r' hr'
        · rcases List.mem_singleton.mp hr' with rfl
          exact hr
      · exact hts u hu
    · intro u hu
      rcases List.mem_cons.mp hu with rfl | hu
      · exact ht
      · exact ih hts hr u hu

theorem foldl_tagsAll {α : Type} {P : Nat × Nat → Prop}
    (f : List CommentTag → α → List CommentTag) :
    ∀ (l : List α),
      (∀ ts a, a ∈ l → tagsRangesAll P ts → tagsRangesAll P (f ts a)) →
      ∀ ts, tagsRangesAll P ts → tagsRangesAll P (l.foldl f ts) := by
  intro l
  induction l with
  | nil => intro _ ts h; simpa using h
  | cons a l ih =>
    intro hf ts h
    simp only [List.foldl_cons]
    exact ih (fun ts b hb => hf ts b (by simp [hb])) (f ts a) (hf ts a (by simp) h)

theorem get?_some_lt {t : List Char} {pos : Nat} {d : Char} (h : t.get? pos = some d) :
    pos < t.length := by
  by_contra hn
  rw [List.get?_eq_none.mpr (Nat.le_of_not_lt hn)] at h
  cases h

theorem mrun_bounds (γ : RxCtx) :
    ∀ (fuel : Nat) (re : RE) (pos : Nat) (caps : Caps) (r : Nat × Caps),
      r ∈ mrun γ fuel re pos caps → pos ≤ γ.text.length →
      pos ≤ r.1 ∧ r.1 ≤ γ.text.length ∧
        ∀ e ∈ r.2, e ∈ caps ∨ (pos ≤ e.2.1 ∧ e.2.1 ≤ e.2.2 ∧ e.2.2 ≤ r.1) := by
  intro fuel
  induction fuel with
  | zero => intro re pos caps r hr; simp [mrun] at hr
  | succ fuel ih =>
    intro re pos caps r hr hpos
    cases re with
    | eps =>
      simp only [mrun, List.mem_singleton] at hr
      subst hr
      exact ⟨Nat.le_refl _, hpos, fun e he => Or.inl he⟩
    | lit c =>
      simp only [mrun] at hr
      split at hr
      case _ d heq =>
        have hlt := get?_some_lt heq
        split at hr
        · simp only [List.mem_singleton] at hr
          subst hr
          exact ⟨Nat.le_succ _, hlt, fun e he => Or.inl he⟩
        · simp at hr
      case _ => simp at hr
    | cls neg cs =>
      simp only [mrun] at hr
      split at hr
      case _ d heq =>
        have hlt := get?_some_lt heq
        split at hr
        · simp only [List.mem_singleton] at hr
          subst hr
          exact ⟨Nat.le_succ _, hlt, fun e he => Or.inl he⟩
        · simp at hr
      case _ => simp at hr
    | dot =>
      simp only [mrun] at hr
      split at hr
      case _ d heq =>
        have hlt := get?_some_lt heq
        split at hr
        · simp at hr
        · simp only [List.mem_singleton] at hr
          subst hr
          exact ⟨Nat.le_succ _, hlt, fun e he => Or.inl he⟩
      case _ => simp at hr
    | anyc =>
      simp only [mrun] at hr
      split at hr
      case _ d heq =>
        have hlt := get?_some_lt heq
        simp only [List.mem_singleton] at hr
        subst hr
        exact ⟨Nat.le_succ _, hlt, fun e he => Or.inl he⟩
      case _ => simp at hr
    | bol =>
      simp only [mrun] at hr
      split at hr
      · simp only [List.mem_singleton] at hr
        subst hr
        exact ⟨Nat.le_refl _, hpos, fun e he => Or.inl he⟩
      · simp at hr
    | cat a b =>
      simp only [mrun, List.mem_flatMap] at hr
      obtain ⟨q, hq, hr⟩ := hr
      obtain ⟨h1a, h1b, h1c⟩ := ih a pos caps q hq hpos
      obtain ⟨h2a, h2b, h2c⟩ := ih b q.1 q.2 r hr h1b
      refine ⟨Nat.le_trans h1a h2a, h2b, fun e he => ?_⟩
      rcases h2c e he with hin | hw
      · rcases h1c e hin with hin2 | hw2
        · exact Or.inl hin2
        · exact Or.inr ⟨hw2.1, hw2.2.1, Nat.le_trans hw2.2.2 h2a⟩
      · exact Or.inr ⟨Nat.le_trans h1a hw.1, hw.2.1, hw.2.2⟩
    | alt a b =>
      simp only [mrun, List.mem_append] at hr
      rcases hr with hr | hr
      · exact ih a pos caps r hr hpos
      · exact ih b pos caps r hr hpos
    | grp n a =>
      simp only [mrun, List.mem_map] at hr
      obtain ⟨q, hq, rfl⟩ := hr
      obtain ⟨h1a, h1b, h1c⟩ := ih a pos caps q hq hpos
      refine ⟨h1a, h1b, fun e he => ?_⟩
      rcases List.mem_cons.mp he with rfl | he
      · exact Or.inr ⟨Nat.le_refl _, h1a, Nat.le_refl _⟩
      · exact h1c e he
    | star a =>
      simp only [mrun, List.mem_append] at hr
      rcases hr with hr | hr
      · simp only [List.mem_flatMap, List.mem_filter, decide_eq_true_eq] at hr
        obtain ⟨q, ⟨hq, hlt⟩, hr⟩ := hr
        obtain ⟨h1a, h1b, h1c⟩ := ih a pos caps q hq hpos
        obtain ⟨h2a, h2b, h2c⟩ := ih (.star a) q.1 q.2 r hr h1b
        refine ⟨Nat.le_trans h1a h2a, h2b, fun e he => ?_⟩
        rcases h2c e he with hin | hw
        · rcases h1c e hin with hin2 | hw2
          · exact Or.inl hin2
          · exact Or.inr ⟨hw2.1, hw2.2.1, Nat.le_trans hw2.2.2 h2a⟩
        · exact Or.inr ⟨Nat.le_trans h1a hw.1, hw.2.1, hw.2.2⟩
      · simp only [List.mem_singleton] at hr
        subst hr
        exact ⟨Nat.le_refl _, hpos, fun e he => Or.inl he⟩
    | lazyStar a =>
      simp only [mrun, List.mem_cons] at hr
      rcases hr with rfl | hr
      · exact ⟨Nat.le_refl _, hpos, fun e he => Or.inl he⟩
      · simp only [List.mem_flatMap, List.mem_filter, decide_eq_true_eq] at hr
        obtain ⟨q, ⟨hq, hlt⟩, hr⟩ := hr
        obtain ⟨h1a, h1b, h1c⟩ := ih a pos caps q hq hpos
        obtain ⟨h2a, h2b, h2c⟩ := ih (.lazyStar a) q.1 q.2 r hr h1b
        refine ⟨Nat.le_trans h1a h2a, h2b, fun e he => ?_⟩
        rcases h2c e he with hin | hw
        · rcases h1c e hin with hin2 | hw2
          · exact Or.inl hin2
          · exact Or.inr ⟨hw2.1, hw2.2.1, Nat.le_trans hw2.2.2 h2a⟩
        · exact Or.inr ⟨Nat.le_trans h1a hw.1, hw.2.1, hw.2.2⟩

theorem execFrom_bounds (γ : RxCtx) (fuel : Nat) (re : RE) :
    ∀ (tries start : Nat) (m : RxMatch), execFrom γ fuel re tries start = some m →
      start ≤ m.idx ∧ m.idx ≤ m.stop ∧ m.stop ≤ γ.text.length ∧
        ∀ e ∈ m.caps, m.idx ≤ e.2.1 ∧ e.2.1 ≤ e.2.2 ∧ e.2.2 ≤ m.stop := by
  intro tries
  induction tries with
  | zero => intro start m h; simp [execFrom] at h
  | succ tries ih =>
    intro start m h
    simp only [execFrom] at h
    split at h
    case _ hstart =>
      split at h
      case _ r rest heq =>
        cases h
        have hr : r ∈ mrun γ fuel re start [] := by rw [heq]; exact List.mem_cons_self _ _
        obtain ⟨h1, h2, h3⟩ := mrun_bounds γ fuel re start [] r hr hstart
        refine ⟨Nat.le_refl _, h1, h2, fun e he => ?_⟩
        rcases h3 e he with hin | hw
        · cases hin
        · exact hw
      case _ heq =>
        obtain ⟨h1, h2, h3, h4⟩ := ih (start + 1) m h
        exact ⟨Nat.le_trans (Nat.le_succ _) h1, h2, h3, h4⟩
    case _ => cases h

theorem execLoop_bounds (γ : RxCtx) (fuel : Nat) (re : RE) :
    ∀ (rounds li : Nat) (m : RxMatch), m ∈ execLoop γ fuel re rounds li →
      m.idx ≤ m.stop ∧ m.stop ≤ γ.text.length ∧
        ∀ e ∈ m.caps, m.idx ≤ e.2.1 ∧ e.2.1 ≤ e.2.2 ∧ e.2.2 ≤ m.stop := by
  intro rounds
  induction rounds with
  | zero => intro li m h; simp [execLoop] at h
  | succ rounds ih =>
    intro li m h
    simp only [execLoop] at h
    split at h
    case _ => cases h
    case _ m0 heq =>
      rcases List.mem_cons.mp h with rfl | h
      · obtain ⟨-, h2, h3, h4⟩ := execFrom_bounds γ fuel re _ li m heq
        exact ⟨h2, h3, h4⟩
      · exact ih m0.stop m h

theorem execFrom_nonempty (γ : RxCtx) (fuel : Nat) (re : RE) :
    ∀ (tries start : Nat) (m : RxMatch), execFrom γ fuel re tries start = some m →
      mrun γ fuel re m.idx [] ≠ [] := by
  intro tries
  induction tries with
  | zero => intro start m h; simp [execFrom] at h
  | succ tries ih =>
    intro start m h
    simp only [execFrom] at h
    split at h
    case _ hstart =>
      split at h
      case _ r rest heq =>
        cases h
        simp [heq]
      case _ heq => exact ih (start + 1) m h
    case _ => cases h

theorem execLoop_nonempty (γ : RxCtx) (fuel : Nat) (re : RE) :
    ∀ (rounds li : Nat) (m : RxMatch), m ∈ execLoop γ fuel re rounds li →
      mrun γ fuel re m.idx [] ≠ [] := by
  intro rounds
  induction rounds with
  | zero => intro li m h; simp [execLoop] at h
  | succ rounds ih =>
    intro li m h
    simp only [execLoop] at h
    split at h
    case _ => cases h
    case _ m0 heq =>
      rcases List.mem_cons.mp h with rfl | h
      · exact execFrom_nonempty γ fuel re _ li m heq
      · exact ih m0.stop m h

theorem flatMap_ne_nil {α β : Type} {l : List α} {f : α → List β} (h : l.flatMap f ≠ []) :
    l ≠ [] := by
  intro h0
  subst h0
  simp at h

theorem sliceL_length {t : List Char} {a b : Nat} (h1 : a ≤ b) (h2 : b ≤ t.length) :
    (sliceL t a b).length = b - a := by
  simp only [sliceL, List.length_take, List.length_drop]
  omega

theorem capLen_le {caps : Caps} {n lo hi : Nat}
    (h : ∀ e ∈ caps, lo ≤ e.2.1 ∧ e.2.1 ≤ e.2.2 ∧ e.2.2 ≤ hi) :
    capLen caps n ≤ hi - lo := by
  cases hf : capGet caps n with
  | none => simp [capLen, hf]
  | some p =>
    obtain ⟨en, hen, hp⟩ : ∃ en ∈ caps, en.2 = p := by
      unfold capGet at hf
      cases hg : caps.find? (fun e => e.1 == n) with
      | none => rw [hg] at hf; cases hf
      | some en => rw [hg] at hf; cases hf; exact ⟨en, List.mem_of_find?_eq_some hg, rfl⟩
    obtain ⟨h1, h2, h3⟩ := h en hen
    rw [hp] at h1 h2 h3
    simp only [capLen, hf]
    omega

theorem FindSingleLineComments_bounds (text : String) (s : ParserState)
    (hinit : tagsRangesAll (fun r => r.1 ≤ r.2 ∧ r.2 ≤ text.data.length) s.tags) :
    tagsRangesAll (fun r => r.1 ≤ r.2 ∧ r.2 ≤ text.data.length)
      (FindSingleLineComments text s).tags := by
  simp only [FindSingleLineComments]
  split
  · exact hinit
  · refine foldl_tagsAll _ _ ?_ _ hinit
    intro ts m hm h
    dsimp only
    split
    · exact h
    · obtain ⟨h1, h2, -⟩ := execLoop_bounds _ _ _ _ _ m hm
      exact pushRange_all h ⟨h1, h2⟩

theorem FindSingleLineComments_firstline (text : String) (s : ParserState)
    (hig : s.ignoreFirstLine = true)
    (hinit : tagsRangesAll (fun r => r.1 ≠ 0) s.tags) :
    tagsRangesAll (fun r => r.1 ≠ 0) (FindSingleLineComments text s).tags := by
  simp only [FindSingleLineComments]
  split
  · exact hinit
  · refine foldl_tagsAll _ _ ?_ _ hinit
    intro ts m hm h
    dsimp only
    split
    · exact h
    · next hcond =>
      refine pushRange_all h ?_
      simp only [hig, Bool.true_and, beq_iff_eq] at hcond
      exact hcond

theorem FindBlockComments_bounds (text : String) (s : ParserState)
    (hinit : tagsRangesAll (fun r => r.1 ≤ r.2 ∧ r.2 ≤ text.data.length) s.tags) :
    tagsRangesAll (fun r => r.1 ≤ r.2 ∧ r.2 ≤ text.data.length)
      (FindBlockComments text s).tags := by
  simp only [FindBlockComments]
  split
  · exact hinit
  · refine foldl_tagsAll _ _ ?_ _ hinit
    intro ts m hm h
    dsimp only
    obtain ⟨hm1, hm2, -⟩ := execLoop_bounds _ _ _ _ _ m hm
    refine foldl_tagsAll _ _ ?_ _ h
    intro ts' l hl h'
    dsimp only
    obtain ⟨hl1, hl2, hlc⟩ := execLoop_bounds _ _ _ _ _ l hl
    have hm2x : m.stop ≤ text.data.length := hm2
    have hbt : (sliceL text.data m.idx m.stop).length = m.stop - m.idx :=
      sliceL_length hm1 hm2x
    have hl2x : l.stop ≤ m.stop - m.idx := by rw [← hbt]; exact hl2
    have hcap : capLen l.caps 2 ≤ l.stop - l.idx := capLen_le hlc
    refine pushRange_all h' ⟨?_, ?_⟩ <;> omega

theorem FindJSDocComments_bounds (text : String) (s : ParserState)
    (hinit : tagsRangesAll (fun r => r.1 ≤ r.2 ∧ r.2 ≤ text.data.length) s.tags) :
    tagsRangesAll (fun r => r.1 ≤ r.2 ∧ r.2 ≤ text.data.length)
      (FindJSDocComments text s).tags := by
  simp only [FindJSDocComments]
  split
  · exact hinit
  · refine foldl_tagsAll _ _ ?_ _ hinit
    intro ts m hm h
    dsimp only
    obtain ⟨hm1, hm2, -⟩ := execLoop_bounds _ _ _ _ _ m hm
    refine foldl_tagsAll _ _ ?_ _ h
    intro ts' l hl h'
    dsimp only
    obtain ⟨hl1, hl2, hlc⟩ := execLoop_bounds _ _ _ _ _ l hl
    have hm2x : m.stop ≤ text.data.length := hm2
    have hbt : (sliceL text.data m.idx m.stop).length = m.stop - m.idx :=
      sliceL_length hm1 hm2x
    have hl2x : l.stop ≤ m.stop - m.idx := by rw [← hbt]; exact hl2
    have hcap : capLen l.caps 2 ≤ l.stop - l.idx := capLen_le hlc
    refine pushRange_all h' ⟨?_, ?_⟩ <;> omega

theorem mrun_bol_anchor (γ : RxCtx) :
    ∀ (fuel : Nat) (re2 re3 : RE) (pos : Nat) (caps : Caps),
      mrun γ fuel (RE.cat (RE.cat (RE.grp 1 RE.bol) re2) re3) pos caps ≠ [] →
      bolTest γ pos = true := by
  intro fuel re2 re3 pos caps h
  rcases fuel with _ | fuel
  · simp [mrun] at h
  simp only [mrun] at h
  have h1 : mrun γ fuel (RE.cat (RE.grp 1 RE.bol) re2) pos caps ≠ [] := flatMap_ne_nil h
  rcases fuel with _ | fuel
  · simp [mrun] at h1
  simp only [mrun] at h1
  have h2 : mrun γ fuel (RE.grp 1 RE.bol) pos caps ≠ [] := flatMap_ne_nil h1
  rcases fuel with _ | fuel
  · simp [mrun] at h2
  simp only [mrun] at h2
  have h3 : mrun γ fuel RE.bol pos caps ≠ [] := by
    intro h0
    rw [h0] at h2
    simp at h2
  rcases fuel with _ | fuel
  · simp [mrun] at h3
  simp only [mrun] at h3
  by_contra hb
  simp [hb] at h3

/-- Matches of the plain-text single-line pattern, which is anchored by
`(^)+`, can only start where the `^` assertion holds. -/
theorem FindSingleLineComments_anchored (text : String) (s : ParserState) (rest : RE)
    (hplain : s.exprRE =
      RE.cat (RE.cat (RE.grp 1 RE.bol) (RE.star (RE.grp 1 RE.bol))) rest)
    (hinit : tagsRangesAll
      (fun r => bolTest { text := text.data, ci := true, ml := s.isPlainText } r.1 = true)
      s.tags) :
    tagsRangesAll
      (fun r => bolTest { text := text.data, ci := true, ml := s.isPlainText } r.1 = true)
      (FindSingleLineComments text s).tags := by
  simp only [FindSingleLineComments]
  split
  · exact hinit
  · refine foldl_tagsAll _ _ ?_ _ hinit
    intro ts m hm h
    dsimp only
    split
    · exact h
    · refine pushRange_all h ?_
      have hne := execLoop_nonempty _ _ _ _ _ m hm
      rw [hplain] at hne
      exact mrun_bol_anchor _ _ _ _ _ _ hne

/-!  ## Helper lemmas: clearing between passes -/

theorem pushRange_clear (key : List Char) (r : Nat × Nat) :
    ∀ ts : List CommentTag, (pushRange key r ts).map clearTag = ts.map clearTag := by
  intro ts
  induction ts with
  | nil => rfl
  | cons t ts ih =>
    unfold pushRange
    split
    · simp [clearTag]
    · simp only [List.map_cons, ih]

theorem foldl_clear {α : Type} (f : List CommentTag → α → List CommentTag)
    (hf : ∀ ts a, (f ts a).map clearTag = ts.map clearTag) :
    ∀ (l : List α) (ts : List CommentTag),
      (l.foldl f ts).map clearTag = ts.map clearTag := by
  intro l
  induction l with
  | nil => intro ts; rfl
  | cons a l ih =>
    intro ts
    simp only [List.foldl_cons]
    rw [ih (f ts a), hf ts a]

theorem FindSingleLineComments_clear (text : String) (s : ParserState) :
    clearState (FindSingleLineComments text s) = clearState s := by
  simp only [FindSingleLineComments]
  split
  · rfl
  · simp only [clearState]
    congr 1
    refine foldl_clear _ ?_ _ _
    intro ts m
    dsimp only
    split
    · rfl
    · exact pushRange_clear _ _ ts

theorem clearTag_idem (t : CommentTag) : clearTag (clearTag t) = clearTag t := rfl

theorem clearState_idem (s : ParserState) : clearState (clearState s) = clearState s := by
  simp only [clearState, List.map_map]
  rfl

theorem map_clearTag_of_empty :
    ∀ ts : List CommentTag, (∀ t ∈ ts, t.ranges = []) → ts.map clearTag = ts := by
  intro ts
  induction ts with
  | nil => intro _; rfl
  | cons t ts ih =>
    intro h
    have ht : clearTag t = t := by
      have := h t (by simp)
      cases t
      simp_all [clearTag]
    simp only [List.map_cons, ht, ih (fun u hu => h u (by simp [hu]))]

theorem clearState_of_empty (s : ParserState) (h : ∀ t ∈ s.tags, t.ranges = []) :
    clearState s = s := by
  simp only [clearState, map_clearTag_of_empty s.tags h]

theorem singleLinePass_state (text : String) (s : ParserState) :
    (singleLinePass text s).2 = clearState s := by
  simp only [singleLinePass, ApplyDecorations]
  exact FindSingleLineComments_clear text s

theorem SetRegex_ignoreFirstLine (cfg : Contributions) (lang : String) (s : ParserState) :
    (SetRegex cfg lang s).ignoreFirstLine = (setDelimiter cfg lang s).ignoreFirstLine := by
  simp only [SetRegex]
  split <;> simp_all

theorem rangesOf_all {P : Nat × Nat → Prop} {s : ParserState} {tg : String}
    {rs : List (Nat × Nat)} (hall : tagsRangesAll P s.tags)
    (h : (tg, rs) ∈ rangesOf s) : ∀ r ∈ rs, P r := by
  simp only [rangesOf, List.mem_map] at h
  obtain ⟨t, ht, heq⟩ := h
  simp only [Prod.mk.injEq] at heq
  obtain ⟨-, rfl⟩ := heq
  exact hall t ht

theorem newState_all (P : Nat × Nat → Prop) (cfg : Contributions) (lang : String) :
    tagsRangesAll P (SetRegex cfg lang (ParserState.new cfg)).tags := by
  intro t ht r hr
  rw [SetRegex_tags] at ht
  rw [new_tags_ranges cfg t ht] at hr
  cases hr

theorem literalParse_setTagsEscape :
    ∀ l : List Char, literalParse (setTagsEscapeL l) = some l := by
  intro l
  induction l with
  | nil => rfl
  | cons c cs ih =>
    have hbs : '\\' ∈ setTagsEscapeChars := by simp [setTagsEscapeChars]
    simp only [setTagsEscapeL]
    split
    next hcond =>
      simp only [List.cons_append, List.nil_append]
      rw [literalParse.eq_def]
      dsimp only
      rw [if_pos rfl, ih]
      rfl
    next hcond =>
      have hc : c ∉ setTagsEscapeChars ∧ c ≠ '/' := by
        constructor <;> intro h <;> simp [h] at hcond
      have hne : c ≠ '\\' := fun h => hc.1 (h ▸ hbs)
      simp only [List.singleton_append]
      rw [literalParse.eq_def]
      dsimp only
      rw [if_neg hne, if_neg hc.1, ih]
      rfl

/-!  ## The claims -/

/-- C1, counterexample: tags configured as `!` before `!!` (the marker of
`!` is a strict prefix of the marker of `!!`).  On the line `// !!`, which
contains only the marker of `!!`, the single-line scan attributes the
match to `!` and records nothing for `!!`, contradicting "attributed to B
and never to A" and the claimed longest-marker-first alternation order. -/
theorem C1_counterexample :
    ("!", [((0 : Nat), (5 : Nat))]) ∈ scanSingleLine cfgTwoTags "javascript" "// !!" ∧
    ("!!", ([] : List (Nat × Nat))) ∈ scanSingleLine cfgTwoTags "javascript" "// !!" := by
  constructor <;> decide

/-- C1, amended: the tag alternation is assembled in configuration order
(the order of `setTags`), not sorted longest-marker-first; consequently,
when a strict-prefix tag A precedes the longer tag B in the configuration,
a line containing only the marker of B is attributed to A.  Concretely,
with tags `!` then `!!`, the assembled single-line pattern keeps the
configuration order in the alternation and the scan of `// !!` attributes
the whole comment to `!`. -/
theorem C1_theorem :
    scanSingleLine cfgTwoTags "javascript" "// !!" = [("!", [(0, 5)]), ("!!", [])] ∧
    (SetRegex cfgTwoTags "javascript" (ParserState.new cfgTwoTags)).expression =
      "(\\/\\/)+( |\t)*(!|!!)+(.*)" := by
  constructor <;> decide

/-- C2: when the resolved grammar is unsupported, each of the three scan
operations yields zero ranges for every configured tag. -/
theorem C2_theorem :
    ∀ (cfg : Contributions) (languageId text : String),
      (setDelimiter cfg languageId (ParserState.new cfg)).supportedLanguage = false →
      scanSingleLine cfg languageId text = cfg.tags.map (fun i => (i.tag, [])) ∧
      scanBlock cfg languageId text = cfg.tags.map (fun i => (i.tag, [])) ∧
      scanJSDoc cfg languageId text = cfg.tags.map (fun i => (i.tag, [])) := by
  intro cfg lang text h
  have hs : (SetRegex cfg lang (ParserState.new cfg)).supportedLanguage = false := by
    rw [SetRegex_supported]
    exact h
  refine ⟨?_, ?_, ?_⟩ <;>
    · simp only [scanSingleLine, scanBlock, scanJSDoc, hs, Bool.false_eq_true, if_false,
        SetRegex_tags]
      simp only [ParserState.new, setTags, List.map_map]
      rfl

/-- C2, witness at language `unknownlang`. -/
theorem C2_witness :
    (setDelimiter cfgTodo "unknownlang" (ParserState.new cfgTodo)).supportedLanguage = false ∧
    scanSingleLine cfgTodo "unknownlang" "// TODO: x" = [("todo", [])] ∧
    scanBlock cfgTodo "unknownlang" "// TODO: x" = [("todo", [])] ∧
    scanJSDoc cfgTodo "unknownlang" "// TODO: x" = [("todo", [])] := by
  have h := C2_theorem cfgTodo "unknownlang" "// TODO: x" (by decide)
  exact ⟨by decide, h.1.trans (by decide), h.2.1.trans (by decide), h.2.2.trans (by decide)⟩

/-- C3, counterexample: the escaping performed at registry construction
(`setTags`) does not escape `]` (nor the closing brace), although both are
in the claimed metacharacter list, so the fragment is not the
escape-everything fragment the claim describes. -/
theorem C3_counterexample :
    setTagsEscape "]" ≠ specEscapeAllMeta "]" ∧
    setTagsEscape "]" = "]" ∧
    setTagsEscape "\x7d" = "\x7d" := by
  refine ⟨?_, rfl, rfl⟩
  decide

/-- C3, amended: the `setTags` escaping escapes every character of the
class `( ) [ { * + . $ ^ \ | ?` and additionally the forward slash, but
leaves `]` and the closing brace unescaped; since ECMAScript treats those
two unescaped characters as literal atoms (outside a character class), the
produced fragment still denotes exactly the literal marker string. -/
theorem C3_theorem :
    (∀ s : String, literalParse (setTagsEscape s).data = some s.data) ∧
    (setTagsEscapeChars.all (fun c => setTagsEscapeL [c] == ['\\', c]) = true) ∧
    setTagsEscapeL ['/'] = ['\\', '/'] ∧
    setTagsEscapeL [']'] = [']'] ∧
    setTagsEscapeL ['\x7d'] = ['\x7d'] := by
  refine ⟨?_, by decide, by decide, by decide, by decide⟩
  intro s
  exact literalParse_setTagsEscape s.data

/-- C4, counterexample: on `// TODO: fix this` (javascript), the emitted
single-line range starts at offset 0, the start of the `//` delimiter,
not at offset 3 where the tag marker starts - the range does not exclude
the comment delimiter and the whitespace before the tag. -/
theorem C4_counterexample :
    ("todo", [((0 : Nat), (17 : Nat))]) ∈
      scanSingleLine cfgTodo "javascript" "// TODO: fix this" ∧
    ("todo", [((3 : Nat), (17 : Nat))]) ∉
      scanSingleLine cfgTodo "javascript" "// TODO: fix this" := by
  constructor <;> decide

/-- C4, amended: a single-line match range runs from the start of the
comment delimiter through the end of the line, including the delimiter and
the whitespace between the delimiter and the tag (the source uses
`match.index`, the start of the whole match, as the range start). -/
theorem C4_theorem :
    scanSingleLine cfgTodo "javascript" "// TODO: fix this" = [("todo", [(0, 17)])] ∧
    scanSingleLine cfgBang "javascript" "let x = 1; // ! urgent" = [("!", [(11, 22)])] := by
  constructor <;> decide

/-- C5: the single-line scan-and-apply pass is idempotent on unchanged
text and configuration - the second and third passes always produce the
same mapping, the first pass agrees whenever the buffers start empty, and
`ApplyDecorations` leaves every buffer cleared for the next pass. -/
theorem C5_theorem :
    (∀ (text : String) (s : ParserState),
        (singleLinePass text (singleLinePass text s).2).1 =
          (singleLinePass text ((singleLinePass text (singleLinePass text s).2).2)).1) ∧
    (∀ (text : String) (s : ParserState), (∀ t ∈ s.tags, t.ranges = []) →
        (singleLinePass text s).1 = (singleLinePass text (singleLinePass text s).2).1) ∧
    (∀ (s : ParserState), ∀ t ∈ (ApplyDecorations s).2.tags, t.ranges = []) := by
  refine ⟨?_, ?_, ?_⟩
  · intro text s
    rw [singleLinePass_state text s, singleLinePass_state text (clearState s),
      clearState_idem]
  · intro text s h
    rw [singleLinePass_state text s, clearState_of_empty s h]
  · intro s t ht
    simp only [ApplyDecorations, List.mem_map] at ht
    obtain ⟨u, -, rfl⟩ := ht
    rfl

/-- C5, witness: a concrete first and second pass coincide. -/
theorem C5_witness :
    (∀ t ∈ (SetRegex cfgTodo "javascript" (ParserState.new cfgTodo)).tags, t.ranges = []) ∧
    (singleLinePass "// TODO: x" (SetRegex cfgTodo "javascript" (ParserState.new cfgTodo))).1 =
      (singleLinePass "// TODO: x"
        (singleLinePass "// TODO: x"
          (SetRegex cfgTodo "javascript" (ParserState.new cfgTodo))).2).1 :=
  ⟨by decide, C5_theorem.2.1 _ _ (by decide)⟩

/-- C6: for a language whose grammar sets `ignoreFirstLine`, a single-line
match beginning at absolute offset 0 of the document is discarded, and the
same marker placed on a later line is included (python shebang scenario:
the first-line `!` is excluded while the second-line `!` yields the range
`[15, 27)`). -/
theorem C6_theorem :
    (∀ (cfg : Contributions) (languageId text : String) (tg : String)
        (rs : List (Nat × Nat)) (r : Nat × Nat),
        (setDelimiter cfg languageId (ParserState.new cfg)).ignoreFirstLine = true →
        (tg, rs) ∈ scanSingleLine cfg languageId text → r ∈ rs → r.1 ≠ 0) ∧
    scanSingleLine cfgBang "python" "#!shebang-like\n# ! real tag" =
      [("!", [(15, 27)])] := by
  constructor
  · intro cfg lang text tg rs r hig hmem hr
    have hig2 : (SetRegex cfg lang (ParserState.new cfg)).ignoreFirstLine = true := by
      rw [SetRegex_ignoreFirstLine]
      exact hig
    revert hmem
    simp only [scanSingleLine]
    split
    · intro hmem
      exact rangesOf_all
        (FindSingleLineComments_firstline text _ hig2 (newState_all _ cfg lang)) hmem r hr
    · intro hmem
      simp only [List.mem_map] at hmem
      obtain ⟨t, -, heq⟩ := hmem
      simp only [Prod.mk.injEq] at heq
      obtain ⟨-, rfl⟩ := heq
      cases hr
  · decide

/-- C6, witness: the python scenario instantiating the universal half. -/
theorem C6_witness :
    (setDelimiter cfgBang "python" (ParserState.new cfgBang)).ignoreFirstLine = true ∧
    ("!", [((15 : Nat), (27 : Nat))]) ∈
      scanSingleLine cfgBang "python" "#!shebang-like\n# ! real tag" ∧
    ((15 : Nat), (27 : Nat)) ∈ [((15 : Nat), (27 : Nat))] ∧
    (15 : Nat) ≠ 0 := by
  refine ⟨by decide, by decide, by decide, ?_⟩
  exact C6_theorem.1 cfgBang "python" "#!shebang-like\n# ! real tag" "!" [(15, 27)]
    (15, 27) (by decide) (by decide) (by decide)

/-- C7: every range emitted by any of the three scan operations lies within
the bounds of the document text: start before stop, stop at most the text
length. -/
theorem C7_theorem :
    ∀ (cfg : Contributions) (languageId text : String) (tg : String)
      (rs : List (Nat × Nat)) (r : Nat × Nat),
      ((tg, rs) ∈ scanSingleLine cfg languageId text ∨
        (tg, rs) ∈ scanBlock cfg languageId text ∨
        (tg, rs) ∈ scanJSDoc cfg languageId text) →
      r ∈ rs → r.1 ≤ r.2 ∧ r.2 ≤ text.length := by
  intro cfg lang text tg rs r hmem hr
  have key : r.1 ≤ r.2 ∧ r.2 ≤ text.data.length := by
    rcases hmem with h | h | h
    · revert h
      simp only [scanSingleLine]
      split
      · intro h
        exact rangesOf_all
          (FindSingleLineComments_bounds text _ (newState_all _ cfg lang)) h r hr
      · intro h
        simp only [List.mem_map] at h
        obtain ⟨t, -, heq⟩ := h
        simp only [Prod.mk.injEq] at heq
        obtain ⟨-, rfl⟩ := heq
        cases hr
    · revert h
      simp only [scanBlock]
      split
      · intro h
        exact rangesOf_all
          (FindBlockComments_bounds text _ (newState_all _ cfg lang)) h r hr
      · intro h
        simp only [List.mem_map] at h
        obtain ⟨t, -, heq⟩ := h
        simp only [Prod.mk.injEq] at heq
        obtain ⟨-, rfl⟩ := heq
        cases hr
    · revert h
      simp only [scanJSDoc]
      split
      · intro h
        exact rangesOf_all
          (FindJSDocComments_bounds text _ (newState_all _ cfg lang)) h r hr
      · intro h
        simp only [List.mem_map] at h
        obtain ⟨t, -, heq⟩ := h
        simp only [Prod.mk.injEq] at heq
        obtain ⟨-, rfl⟩ := heq
        cases hr
  exact key

/-- C7, witness: a concrete emitted range of each scan mode is in bounds. -/
theorem C7_witness :
    (("todo", [((0 : Nat), (17 : Nat))]) ∈
        scanSingleLine cfgTodo "javascript" "// TODO: fix this") ∧
    (((0 : Nat), (17 : Nat)) ∈ [((0 : Nat), (17 : Nat))]) ∧
    ((0 : Nat) ≤ 17 ∧ (17 : Nat) ≤ ("// TODO: fix this" : String).length) ∧
    ((("!", [((5 : Nat), (9 : Nat))]) ∈ scanBlock cfgMulti "c" "/* \n ! */") ∧
      ((5 : Nat) ≤ 9 ∧ (9 : Nat) ≤ ("/* \n ! */" : String).length)) := by
  refine ⟨by decide, by decide, ?_, by decide, ?_⟩
  · exact C7_theorem cfgTodo "javascript" "// TODO: fix this" "todo" [(0, 17)] (0, 17)
      (Or.inl (by decide)) (by decide)
  · exact C7_theorem cfgMulti "c" "/* \n ! */" "!" [(5, 9)] (5, 9)
      (Or.inr (Or.inl (by decide))) (by decide)

/-- C8: in plain-text mode with plain-text highlighting enabled, every
emitted single-line range starts at a line start (offset 0 or right after a
line terminator): the pattern anchors to line start in multiline mode
instead of requiring a comment delimiter.  The concrete scenario shows the
two markers at line starts (with and without leading whitespace) included
and the mid-line marker of line 2 excluded. -/
theorem C8_theorem :
    (∀ (cfg : Contributions) (text : String) (tg : String)
        (rs : List (Nat × Nat)) (r : Nat × Nat),
        cfg.highlightPlainText = true →
        (tg, rs) ∈ scanSingleLine cfg "plaintext" text → r ∈ rs →
        r.1 = 0 ∨ text.data.get? (r.1 - 1) = some '\n' ∨
          text.data.get? (r.1 - 1) = some '\r') ∧
    scanSingleLine cfgPlain "plaintext" "! a\nx ! b\n  ! c" =
      [("!", [(0, 3), (10, 15)])] := by
  constructor
  · intro cfg text tg rs r hpt hmem hr
    have hlc : langCase "plaintext" = LangCase.plainCase := by decide
    have hsd : setDelimiter cfg "plaintext" (ParserState.new cfg) =
        { ParserState.new cfg with
            supportedLanguage := cfg.highlightPlainText,
            ignoreFirstLine := false, isPlainText := true } := by
      unfold setDelimiter
      rw [hlc]
      rfl
    have hstate : SetRegex cfg "plaintext" (ParserState.new cfg) =
        { ParserState.new cfg with
            supportedLanguage := true, ignoreFirstLine := false, isPlainText := true,
            expression := "(^)+([ \\t]*[ \\t]*)" ++ "(" ++
              String.intercalate "|"
                ((ParserState.new cfg).tags.map (fun t => t.escapedTag)) ++ ")+(.*)",
            exprRE := RE.cat (REplus (RE.grp 1 RE.bol))
              (RE.cat (RE.grp 2 (RE.cat (RE.star hwsCls) (RE.star hwsCls)))
                (RE.cat (REplus (RE.grp 3 (tagAltRE (ParserState.new cfg).tags)))
                  (RE.grp 4 (RE.star RE.dot)))) } := by
      unfold SetRegex
      rw [hsd]
      simp [buildSingleLineRE, hpt]
    revert hmem
    simp only [scanSingleLine, hstate]
    intro hmem
    split at hmem
    · have hanch := FindSingleLineComments_anchored text
        { ParserState.new cfg with
            supportedLanguage := true, ignoreFirstLine := false, isPlainText := true,
            expression := "(^)+([ \\t]*[ \\t]*)" ++ "(" ++
              String.intercalate "|"
                ((ParserState.new cfg).tags.map (fun t => t.escapedTag)) ++ ")+(.*)",
            exprRE := RE.cat (REplus (RE.grp 1 RE.bol))
              (RE.cat (RE.grp 2 (RE.cat (RE.star hwsCls) (RE.star hwsCls)))
                (RE.cat (REplus (RE.grp 3 (tagAltRE (ParserState.new cfg).tags)))
                  (RE.grp 4 (RE.star RE.dot)))) }
        (RE.cat (RE.grp 2 (RE.cat (RE.star hwsCls) (RE.star hwsCls)))
          (RE.cat (REplus (RE.grp 3 (tagAltRE (ParserState.new cfg).tags)))
            (RE.grp 4 (RE.star RE.dot))))
        rfl
        (by
          intro t ht r0 hr0
          rw [new_tags_ranges cfg t ht] at hr0
          cases hr0)
      have hb := rangesOf_all hanch hmem r hr
      simp only [bolTest, Bool.or_eq_true, beq_iff_eq, Bool.and_eq_true] at hb
      rcases hb with h0 | ⟨-, h1 | h1⟩
      · exact Or.inl h0
      · exact Or.inr (Or.inl h1)
      · exact Or.inr (Or.inr h1)
    · next hguard => exact absurd trivial hguard
  · decide

/-- C8, witness: the scenario instantiating the universal half at the
range starting at offset 10, which follows the newline at offset 9. -/
theorem C8_witness :
    cfgPlain.highlightPlainText = true ∧
    ("!", [((0 : Nat), (3 : Nat)), ((10 : Nat), (15 : Nat))]) ∈
      scanSingleLine cfgPlain "plaintext" "! a\nx ! b\n  ! c" ∧
    ((10 : Nat), (15 : Nat)) ∈ [((0 : Nat), (3 : Nat)), ((10 : Nat), (15 : Nat))] ∧
    ((10 : Nat) = 0 ∨ ("! a\nx ! b\n  ! c" : String).data.get? (10 - 1) = some '\n' ∨
      ("! a\nx ! b\n  ! c" : String).data.get? (10 - 1) = some '\r') := by
  refine ⟨by decide, by decide, by decide, ?_⟩
  exact C8_theorem.1 cfgPlain "! a\nx ! b\n  ! c" "!" [(0, 3), (10, 15)] (10, 15)
    (by decide) (by decide) (by decide)

/-- C9, counterexample: grammar resolution is not independent of previously
resolved language ids.  Resolving `ada` right after `javascript` leaves the
javascript block-comment delimiter in place (fresh resolution of `ada`
leaves it empty), and resolving `c` after `javascript` keeps
`highlightJSDoc` set although a fresh resolution of `c` does not. -/
theorem C9_counterexample :
    (setDelimiter cfgMulti "ada" (setDelimiter cfgMulti "javascript"
        (ParserState.new cfgMulti))).blockCommentStart ≠
      (setDelimiter cfgMulti "ada" (ParserState.new cfgMulti)).blockCommentStart ∧
    (setDelimiter cfgMulti "c" (setDelimiter cfgMulti "javascript"
        (ParserState.new cfgMulti))).highlightJSDoc ≠
      (setDelimiter cfgMulti "c" (ParserState.new cfgMulti)).highlightJSDoc := by
  constructor <;> decide

/-- C9, amended: resolution re-derives only `supportedLanguage`,
`ignoreFirstLine` and `isPlainText` deterministically from the language id
and configuration alone - these three are identical across calls
regardless of any previously resolved ids; the delimiter, block-comment
delimiters and highlight flags persist from earlier resolutions and are
therefore history-dependent (see the counterexample). -/
theorem C9_theorem :
    ∀ (cfg : Contributions) (languageId : String) (s1 s2 : ParserState),
      (setDelimiter cfg languageId s1).supportedLanguage =
        (setDelimiter cfg languageId s2).supportedLanguage ∧
      (setDelimiter cfg languageId s1).ignoreFirstLine =
        (setDelimiter cfg languageId s2).ignoreFirstLine ∧
      (setDelimiter cfg languageId s1).isPlainText =
        (setDelimiter cfg languageId s2).isPlainText :=
  fun cfg languageId s1 s2 => setDelimiter_flags cfg languageId s1 s2

/-- C10, counterexample: inside a block comment, a tag followed by a space
and then `*/` does produce a range (the space-run backtracks to empty and
`[^*\/]` matches the space), and a tag with no further text on its line
also produces a range (`[^*\/]` matches the newline), contradicting the
claim that these produce no range. -/
theorem C10_counterexample :
    ("!", [((5 : Nat), (9 : Nat))]) ∈ scanBlock cfgMulti "c" "/* \n ! */" ∧
    ("!", [((4 : Nat), (8 : Nat))]) ∈ scanBlock cfgMulti "c" "/*\n !\n*/" := by
  constructor <;> decide

/-- C10, amended: the inner line pattern of both block scans requires, after
the tag and a backtrackable run of spaces or colons, one character that is
neither `*` nor `/`; because the run may match empty and the class accepts
any other character including space and newline, a range is produced unless
every character reachable right after the tag through such a run is `*` or
`/` - in particular a tag immediately followed by `*/` produces no range,
while a tag followed by a space before `*/`, or standing at the end of its
line, still produces one. -/
theorem C10_theorem :
    scanBlock cfgMulti "c" "/*\n !*/" = [("!", [])] ∧
    scanJSDoc cfgMulti "javascript" "/** \n * !*/" = [("!", [])] ∧
    scanBlock cfgMulti "c" "/* \n ! */" = [("!", [(5, 9)])] ∧
    scanBlock cfgMulti "c" "/*\n !\n*/" = [("!", [(4, 8)])] := by
  refine ⟨?_, ?_, ?_, ?_⟩ <;> decide
